import Mathlib

set_option autoImplicit false

/-!
Verification development for the `dispose-derive` code-generation crate
(`src/dispose-derive/lib.rs`, `field_attr.rs`, `with_val.rs`).

The embedding models the derive pass as pure functions:

* Rust expressions that the rewriter touches are embedded as `MExpr`
  (paths, numeric literals, member accesses, calls, and a node standing
  for a nested item definition embedded in an expression).  This is the
  fragment of the `syn` expression grammar that the crate inspects; all
  other expression forms are only carried around opaquely by the source,
  so the fragment suffices for the properties proved here.
* Token streams are embedded as `List Tok`.  `Attribute::meta` in syn 2
  prints as the full meta item, i.e. the attribute path followed by its
  arguments, so `metaToTokens` emits the path identifier first.
  `syn::parse::Parser::parse2` fails with an `unexpected token` error when
  the parser function does not consume the whole stream (including tokens
  left inside a parenthesized group buffer); `parse2FieldAttr` models that
  completeness check.
* The mutable diagnostics `TokenStream` threaded through the pass is
  embedded as a `List Diag` that each function returns alongside its
  result; `Result<T, ()>` becomes `Except Unit`.  `compile_error!`
  invocations are classified by their message into the `Diag` kinds the
  source can produce.
* `collect::<Result<Vec<_>>>()` over a mapped iterator stops consuming at
  the first `Err`, so the field and variant loops are embedded as
  recursions that stop (and stop extending the diagnostics) at the first
  erroring element.
-/

/-- Member reference: a named field or a positional index (`syn::Member`). -/
inductive Member
  | named (s : String)
  | unnamed (i : Nat)
deriving DecidableEq, Repr

/-- `member_to_string` from `lib.rs`: the field name, or the decimal index. -/
def memberToString : Member → String
  | .named s => s
  | .unnamed i => toString i

/-- Expression fragment the rewriter works on.  `itemNode body` stands for an
expression that syntactically contains a nested item definition (`syn::Item`)
whose inside contains the expression `body`. -/
inductive MExpr
  | path (s : String)
  | lit (n : Nat)
  | field (base : MExpr) (member : Member)
  | call (fn : MExpr) (arg : MExpr)
  | itemNode (body : MExpr)
deriving DecidableEq, Repr

/-- `ExpandSelf` from `with_val.rs`: a fold over the expression that replaces
`Expr::Field` nodes whose base is the path `self` by the identifier produced
by the naming function, recurses into every other expression node
(`syn::fold::fold_expr`), and does not descend into nested items
(`fold_item` returns the item unchanged). -/
def expandSelf (nm : Member → String) : MExpr → MExpr
  | .field b m => if b = .path "self" then .path (nm m) else .field (expandSelf nm b) m
  | .path s => .path s
  | .lit n => .lit n
  | .call f a => .call (expandSelf nm f) (expandSelf nm a)
  | .itemNode b => .itemNode b

/-- `WithVal` from `with_val.rs`: either an opaque expression, or the leading
member-access shorthand (a `.` token followed by the parsed trailing
expression). -/
inductive WithVal
  | expr (e : MExpr)
  | selfDot (e : MExpr)
deriving DecidableEq, Repr

/-- Result of reparsing `self . <tokens of e>` (the `parse_quote!` in
`WithVal::expand`).  On the member-reference fragment (paths, literal
indices and member-access chains) this is exact: the `self` prefix attaches
to the leftmost primary of the chain.  The remaining constructors are mapped
structurally; they are outside the shorthand grammar the claims exercise. -/
def spliceSelf : MExpr → MExpr
  | .path a => .field (.path "self") (.named a)
  | .lit i => .field (.path "self") (.unnamed i)
  | .field b m => .field (spliceSelf b) m
  | .call f a => .call (spliceSelf f) a
  | .itemNode b => .itemNode b

/-- `WithVal::expand`: run the self-rewriter over the stored expression, after
prefixing the aggregate instance in the shorthand case. -/
def WithVal.expand (nm : Member → String) : WithVal → MExpr
  | .expr e => expandSelf nm e
  | .selfDot e => expandSelf nm (spliceSelf e)

/-- Delimiters of a token group. -/
inductive Delim
  | paren
  | bracket
  | brace
deriving DecidableEq, Repr

/-- Token trees of a `proc_macro2::TokenStream`, restricted to what the
modeled parsers inspect. -/
inductive Tok
  | ident (s : String)
  | lit (n : Nat)
  | punct (c : Char)
  | group (d : Delim) (ts : List Tok)
deriving Repr

/-- Parse a member-access chain continuing the already parsed expression
`acc`: zero or more `. ident` or `. <int literal>` steps, leaving everything
else unconsumed.  This is the fragment of the syn expression grammar used by
the directive arguments the claims are about. -/
def chainFromToks (acc : MExpr) : List Tok → MExpr × List Tok
  | .punct '.' :: .ident s :: rest => chainFromToks (.field acc (.named s)) rest
  | .punct '.' :: .lit n :: rest => chainFromToks (.field acc (.unnamed n)) rest
  | ts => (acc, ts)

/-- Parse one expression of the modeled fragment from a token stream,
returning it together with the unconsumed tokens. -/
def exprFromToks : List Tok → Except String (MExpr × List Tok)
  | .ident s :: rest => .ok (chainFromToks (.path s) rest)
  | .lit n :: rest => .ok (chainFromToks (.lit n) rest)
  | _ => .error "unsupported expression"

/-- `WithVal::parse`: a leading `.` selects the shorthand form (the dot is
consumed and the rest is parsed as an expression); otherwise the whole input
is parsed as an expression. -/
def withValFromToks : List Tok → Except String (WithVal × List Tok)
  | .punct '.' :: rest =>
    match exprFromToks rest with
    | .ok (e, r) => .ok (.selfDot e, r)
    | .error e => .error e
  | ts =>
    match exprFromToks ts with
    | .ok (e, r) => .ok (.expr e, r)
    | .error e => .error e

/-- `FieldMode` from `field_attr.rs`. -/
inductive FieldMode
  | dispose (isIter : Bool)
  | disposeWith (isIter : Bool) (w : WithVal)
  | ignore
deriving DecidableEq, Repr

/-- `FieldAttr` from `field_attr.rs`; its `Default` is `Dispose { is_iter: false }`. -/
structure FieldAttr where
  mode : FieldMode
deriving DecidableEq, Repr

/-- Parse the contents of the parenthesized argument group of a directive
(`FieldAttr::parse` after `parenthesized!`): a leading identifier selects
`ignore`, `with = <expr>`, `iter` or `iter_with = <expr>`; any other leading
identifier is a parse error naming the accepted set; a group not starting
with an identifier yields the default attribute without consuming anything.
The unconsumed tokens of the group are returned so the caller can model the
completeness check syn performs on the group buffer. -/
def parseModeArgs : List Tok → Except String (FieldAttr × List Tok)
  | .ident i :: rest =>
    if i = "ignore" then .ok (⟨.ignore⟩, rest)
    else if i = "with" then
      match rest with
      | .punct '=' :: rest2 =>
        match withValFromToks rest2 with
        | .ok (w, rest3) => .ok (⟨.disposeWith false w⟩, rest3)
        | .error e => .error e
      | _ => .error "expected equals sign"
    else if i = "iter" then .ok (⟨.dispose true⟩, rest)
    else if i = "iter_with" then
      match rest with
      | .punct '=' :: rest2 =>
        match withValFromToks rest2 with
        | .ok (w, rest3) => .ok (⟨.disposeWith true w⟩, rest3)
        | .error e => .error e
      | _ => .error "expected equals sign"
    else .error "expected ignore, with, iter, or iter_with"
  | ts => .ok (⟨.dispose false⟩, ts)

/-- `FieldAttr::parse` on a raw token stream: if the stream starts with a
parenthesized group, parse the group contents, otherwise return the default
attribute without consuming anything.  Returns the attribute, the tokens
left unconsumed inside the group, and the tokens left unconsumed at top
level. -/
def fieldAttrParse : List Tok → Except String (FieldAttr × List Tok × List Tok)
  | .group .paren arg :: rest =>
    match parseModeArgs arg with
    | .ok (fa, argRest) => .ok (fa, argRest, rest)
    | .error e => .error e
  | ts => .ok (⟨.dispose false⟩, [], ts)

/-- `Parser::parse2(FieldAttr::parse, ...)`: syn runs the parser function and
then reports an `unexpected token` error when tokens remain unconsumed,
either at top level or inside a parenthesized buffer that was opened. -/
def parse2FieldAttr (ts : List Tok) : Except String FieldAttr :=
  match fieldAttrParse ts with
  | .error e => .error e
  | .ok (fa, argRest, rest) =>
    if argRest.isEmpty && rest.isEmpty then .ok fa else .error "unexpected token"

/-- `syn::AttrStyle`. -/
inductive AttrStyle
  | outer
  | inner
deriving DecidableEq, Repr

/-- Shape of `syn::Meta`: a bare path, a delimited argument list, or a
name-value pair. -/
inductive RsMeta
  | path
  | list (d : Delim) (args : List Tok)
  | nameValue (v : List Tok)
deriving Repr

/-- `syn::Attribute`, restricted to the data the pass inspects: style, path
(single-segment paths modeled as the identifier; `is_ident` is equality with
it) and meta shape. -/
structure RsAttr where
  style : AttrStyle
  path : String
  meta : RsMeta
deriving Repr

/-- `ToTokens` for `syn::Meta`: the printed meta item starts with the
attribute path, followed by the delimited argument list or the `= value`
tail. -/
def metaToTokens (p : String) : RsMeta → List Tok
  | .path => [.ident p]
  | .list d args => [.ident p, .group d args]
  | .nameValue v => .ident p :: .punct '=' :: v

/-- Diagnostics the pass can push into its `compile_error!` stream,
classified by message. -/
inductive Diag
  | unexpectedAttr
  | innerAttr
  | duplicateAttr
  | parseFailed (msg : String)
  | unionNotSupported
deriving DecidableEq, Repr

/-- Accumulator state of the `parse_field_attrs` loop: the running result,
the number of `dispose` attributes seen so far, and the diagnostics pushed
so far. -/
structure PfaState where
  ret : Except String (Option FieldAttr)
  n : Nat
  diags : List Diag
deriving Repr

/-- One iteration of the `parse_field_attrs` loop: flag inner attribute
style (for every attribute, without failing), then for a `dispose`-path
attribute either report a duplicate (when one was already seen) or reparse
the printed meta item. -/
def pfaStep (s : PfaState) (attr : RsAttr) : PfaState :=
  let ds := s.diags ++ (if attr.style = .inner then [.innerAttr] else [])
  if attr.path = "dispose" then
    if s.n > 0 then
      { ret := .error "Duplicate #[dispose] attribute", n := s.n + 1,
        diags := ds ++ [.duplicateAttr] }
    else
      match parse2FieldAttr (metaToTokens attr.path attr.meta) with
      | .ok a => { ret := .ok (some a), n := s.n + 1, diags := ds }
      | .error e => { ret := .error e, n := s.n + 1, diags := ds ++ [.parseFailed e] }
  else
    { s with diags := ds }

/-- `parse_field_attrs` from `field_attr.rs`: fold the loop over the whole
attribute list (scanning never stops early within one field), returning the
diagnostics pushed and the final result. -/
def parseFieldAttrs (attrs : List RsAttr) : List Diag × Except String (Option FieldAttr) :=
  let s := attrs.foldl pfaStep ⟨.ok none, 0, []⟩
  (s.diags, s.ret)

/-- One field of the input schema: optional name, opaque declared type, and
its attribute list. -/
structure SField where
  ident : Option String
  ty : String
  attrs : List RsAttr
deriving Repr

/-- `syn::Fields`: named, unnamed (tuple) or unit shape. -/
inductive FieldsShape
  | named (fs : List SField)
  | unnamed (fs : List SField)
  | unit
deriving Repr

/-- `field_to_member`: named fields keep their name, unnamed fields use their
positional index. -/
def fieldToMember (idx : Nat) (f : SField) : Member :=
  match f.ident with
  | some n => .named n
  | none => .unnamed idx

/-- One generated teardown statement.  `empty` is the empty token stream the
`Ignore` arm produces (the joined output still places a `;` after it, hence
the `redundant_semicolons` allow in the source). -/
inductive Stmt
  | dispose (ty name : String)
  | disposeIter (ty name : String)
  | disposeWith (ty name : String) (w : MExpr)
  | disposeIterWith (ty name : String) (w : MExpr)
  | empty
deriving DecidableEq, Repr

/-- The statement the `match` inside `dispose_fields` emits for one field,
given the naming function, the local binding, the declared type and the
resolved mode. -/
def stmtFor (nm : Member → String) (name ty : String) : FieldMode → Stmt
  | .dispose true => .disposeIter ty name
  | .dispose false => .dispose ty name
  | .disposeWith true w => .disposeIterWith ty name (w.expand nm)
  | .disposeWith false w => .disposeWith ty name (w.expand nm)
  | .ignore => .empty

/-- `handle_field` closure of `dispose_fields`: compute the binding name,
parse the field attributes (propagating a parse failure as `Err`), and emit
the statement for the resolved mode (the parsed mode, or the ambient default
when no directive is present). -/
def handleField (dm : FieldMode) (nm : Member → String) (idx : Nat) (f : SField) :
    List Diag × Except Unit Stmt :=
  let pr := parseFieldAttrs f.attrs
  match pr.2 with
  | .error _ => (pr.1, .error ())
  | .ok a =>
    (pr.1, .ok (stmtFor nm (nm (fieldToMember idx f)) f.ty
      (match a with
       | some fa => fa.mode
       | none => dm)))

/-- The enumerated field loop of `dispose_fields`.  The Rust source maps
`handle_field` over the iterator and collects into `Result<Vec<_>>`, which
stops consuming (and therefore stops pushing diagnostics) at the first
`Err`. -/
def disposeFieldsGo (dm : FieldMode) (nm : Member → String) :
    Nat → List SField → List Diag × Except Unit (List Stmt)
  | _, [] => ([], .ok [])
  | i, f :: fs =>
    let hf := handleField dm nm i f
    match hf.2 with
    | .error _ => (hf.1, .error ())
    | .ok s =>
      let rest := disposeFieldsGo dm nm (i + 1) fs
      (hf.1 ++ rest.1,
        match rest.2 with
        | .ok ss => .ok (s :: ss)
        | .error u => .error u)

/-- `dispose_fields`: named and unnamed field lists are walked the same way;
a unit field list yields no statements. -/
def disposeFields (dm : FieldMode) (nm : Member → String) :
    FieldsShape → List Diag × Except Unit (List Stmt)
  | .named l => disposeFieldsGo dm nm 0 l
  | .unnamed l => disposeFieldsGo dm nm 0 l
  | .unit => ([], .ok [])

/-- Destructuring pattern for one field list: named patterns bind
`field: local`, unnamed patterns bind locals positionally, unit binds
nothing. -/
inductive Pattern
  | named (binds : List (Option String × String))
  | unnamed (binds : List String)
  | unit
deriving DecidableEq, Repr

/-- Bindings of a named destructuring pattern, in declared order. -/
def namedBindsGo (nm : Member → String) : Nat → List SField → List (Option String × String)
  | _, [] => []
  | i, f :: fs => (f.ident, nm (fieldToMember i f)) :: namedBindsGo nm (i + 1) fs

/-- Bindings of an unnamed destructuring pattern, in declared order. -/
def unnamedBindsGo (nm : Member → String) : Nat → List SField → List String
  | _, [] => []
  | i, f :: fs => nm (fieldToMember i f) :: unnamedBindsGo nm (i + 1) fs

/-- `destructure_fields` from `lib.rs`. -/
def destructureFields (nm : Member → String) : FieldsShape → Pattern
  | .named l => .named (namedBindsGo nm 0 l)
  | .unnamed l => .unnamed (unnamedBindsGo nm 0 l)
  | .unit => .unit

/-- The local binding identifiers a pattern introduces. -/
def Pattern.binds : Pattern → List String
  | .named l => l.map Prod.snd
  | .unnamed l => l
  | .unit => []

/-- Struct naming scheme (`field_name` inside `derive_dispose_struct`). -/
def fieldNameStruct (m : Member) : String :=
  "__dispose_self_f" ++ memberToString m

/-- Enum naming scheme (`field_name` inside `derive_dispose_enum`): both the
variant name and the member are folded into the identifier. -/
def fieldNameEnum (var : String) (m : Member) : String :=
  "__dispose_self_v" ++ var ++ "_f" ++ memberToString m

/-- One enum variant of the input schema. -/
structure Variant where
  name : String
  fields : FieldsShape
deriving Repr

/-- `syn::Data`: struct, enum, or union shape of the derive input. -/
inductive RsData
  | structData (fields : FieldsShape)
  | enumData (variants : List Variant)
  | unionData (fields : List SField)
deriving Repr

/-- `syn::DeriveInput`, restricted to what the pass reads. -/
structure DeriveInput where
  name : String
  attrs : List RsAttr
  data : RsData
deriving Repr

/-- One generated match arm: `Self::ctor pat => { stmts }`.  The constructor
pattern names exactly one variant; the embedding has no wildcard pattern
because the generator cannot produce one. -/
structure Arm where
  ctor : String
  pat : Pattern
  stmts : List Stmt
deriving DecidableEq, Repr

/-- Body of the generated `dispose` function: a struct destructuring followed
by the statements, or a `match self` with one arm list and nothing else. -/
inductive FnBody
  | structBody (pat : Pattern) (stmts : List Stmt)
  | matchArms (arms : List Arm)
deriving DecidableEq, Repr

/-- The assembled implementation. -/
structure Impl where
  name : String
  body : FnBody
deriving DecidableEq, Repr

/-- The ambient default mode the entry point passes down:
`FieldMode::Dispose { is_iter: false }`. -/
def defaultFieldMode : FieldMode := .dispose false

/-- `derive_dispose_struct`: destructure once, then emit the field
statements. -/
def deriveDisposeStruct (dm : FieldMode) (fs : FieldsShape) :
    List Diag × Except Unit FnBody :=
  let pat := destructureFields fieldNameStruct fs
  let r := disposeFields dm fieldNameStruct fs
  (r.1,
    match r.2 with
    | .ok ss => .ok (.structBody pat ss)
    | .error u => .error u)

/-- The variant loop of `derive_dispose_enum`: one arm per variant, built in
declaration order, collected into `Result<Vec<_>>` and therefore stopping at
the first erroring variant. -/
def deriveEnumGo (dm : FieldMode) : List Variant → List Diag × Except Unit (List Arm)
  | [] => ([], .ok [])
  | v :: vs =>
    let pat := destructureFields (fieldNameEnum v.name) v.fields
    let r := disposeFields dm (fieldNameEnum v.name) v.fields
    match r.2 with
    | .error _ => (r.1, .error ())
    | .ok ss =>
      let rest := deriveEnumGo dm vs
      (r.1 ++ rest.1,
        match rest.2 with
        | .ok arms => .ok (⟨v.name, pat, ss⟩ :: arms)
        | .error u => .error u)

/-- `derive_dispose_enum`. -/
def deriveDisposeEnum (dm : FieldMode) (vs : List Variant) :
    List Diag × Except Unit (List Arm) :=
  deriveEnumGo dm vs

/-- The aggregate-level attribute check at the top of `derive_dispose_impl`:
one `Unexpected #[dispose] attribute` diagnostic per `dispose`-path
attribute on the aggregate itself; the loop never fails. -/
def aggAttrDiags (attrs : List RsAttr) : List Diag :=
  attrs.filterMap (fun a => if a.path = "dispose" then some .unexpectedAttr else none)

/-- `derive_dispose_impl` composed with the `derive_dispose` entry point: the
emitted token stream consists of the diagnostics followed by the assembled
implementation when the body generation succeeded, and of the diagnostics
alone when it failed. -/
def deriveDisposeImpl (input : DeriveInput) : List Diag × Option Impl :=
  let d0 := aggAttrDiags input.attrs
  match input.data with
  | .structData fs =>
    let r := deriveDisposeStruct defaultFieldMode fs
    (d0 ++ r.1,
      match r.2 with
      | .ok b => some ⟨input.name, b⟩
      | .error _ => none)
  | .enumData vs =>
    let r := deriveDisposeEnum defaultFieldMode vs
    (d0 ++ r.1,
      match r.2 with
      | .ok arms => some ⟨input.name, .matchArms arms⟩
      | .error _ => none)
  | .unionData _ => (d0 ++ [.unionNotSupported], none)

/-- Whether an expression textually mentions the path `self` anywhere,
including inside nested items. -/
def mentionsSelf : MExpr → Bool
  | .path s => s = "self"
  | .lit _ => false
  | .field b _ => mentionsSelf b
  | .call f a => mentionsSelf f || mentionsSelf a
  | .itemNode b => mentionsSelf b

/-- Whether an expression contains a direct member access on `self` outside
of nested items (the shape the rewriter replaces). -/
def hasSelfField : MExpr → Bool
  | .path _ => false
  | .lit _ => false
  | .field b _ => if b = .path "self" then true else hasSelfField b
  | .call f a => hasSelfField f || hasSelfField a
  | .itemNode _ => false

/-- The bodies of the nested item definitions of an expression, in
left-to-right order, without descending into the items themselves. -/
def itemsOf : MExpr → List MExpr
  | .path _ => []
  | .lit _ => []
  | .field b _ => itemsOf b
  | .call f a => itemsOf f ++ itemsOf a
  | .itemNode b => [b]

/-- Tokens of a member reference: the identifier of a named member, the
integer literal of a positional one. -/
def memberToks : Member → List Tok
  | .named a => [.ident a]
  | .unnamed i => [.lit i]

/-- The expression a bare member reference parses to. -/
def memberToExpr : Member → MExpr
  | .named a => .path a
  | .unnamed i => .lit i

/-- Number of `dispose`-path attributes in a list. -/
def countDispose (attrs : List RsAttr) : Nat :=
  (attrs.filter (fun a => a.path = "dispose")).length

/-- The inner-attribute-style diagnostics an attribute list produces. -/
def innerDiags (attrs : List RsAttr) : List Diag :=
  attrs.filterMap (fun a => if a.style = .inner then some .innerAttr else none)

/-- The mode a field resolves to when its attribute parsing succeeds: the
parsed mode, or the ambient default when no directive is present. -/
def resolveMode (dm : FieldMode) (f : SField) : FieldMode :=
  match (parseFieldAttrs f.attrs).2 with
  | .ok (some a) => a.mode
  | .ok none => dm
  | .error _ => dm

/-- Reference statement list for a successfully processed field list: one
statement per field, in declared order, each determined by the field's
resolved mode. -/
def stmtsOfOkGo (dm : FieldMode) (nm : Member → String) : Nat → List SField → List Stmt
  | _, [] => []
  | i, f :: fs =>
    stmtFor nm (nm (fieldToMember i f)) f.ty (resolveMode dm f) :: stmtsOfOkGo dm nm (i + 1) fs

/-- Reference statement list for a field-list shape. -/
def stmtsOfOk (dm : FieldMode) (nm : Member → String) : FieldsShape → List Stmt
  | .named l => stmtsOfOkGo dm nm 0 l
  | .unnamed l => stmtsOfOkGo dm nm 0 l
  | .unit => []

/-- Number of fields of a field-list shape. -/
def numFields : FieldsShape → Nat
  | .named l => l.length
  | .unnamed l => l.length
  | .unit => 0

/-- The fields of a field-list shape. -/
def fieldsOf : FieldsShape → List SField
  | .named l => l
  | .unnamed l => l
  | .unit => []

/-- All fields of a derive input: the struct fields, every variant's fields,
or the union fields. -/
def fieldsOfInput (input : DeriveInput) : List SField :=
  match input.data with
  | .structData fs => fieldsOf fs
  | .enumData vs => (vs.map (fun v => fieldsOf v.fields)).flatten
  | .unionData fs => fs

/-- The local binding a generated statement tears down, if any. -/
def stmtSubject : Stmt → Option String
  | .dispose _ n => some n
  | .disposeIter _ n => some n
  | .disposeWith _ n _ => some n
  | .disposeIterWith _ n _ => some n
  | .empty => none

/-- Whether an `Except` value is a success. -/
def isOkE {ε α : Type} : Except ε α → Bool
  | .ok _ => true
  | .error _ => false

/-- The arm the enum driver builds for one variant when every field
succeeds. -/
def armOfOk (dm : FieldMode) (v : Variant) : Arm :=
  ⟨v.name, destructureFields (fieldNameEnum v.name) v.fields,
    stmtsOfOk dm (fieldNameEnum v.name) v.fields⟩

/-! ### Helper lemmas -/

theorem parse2_metaToTokens_error (p : String) (m : RsMeta) :
    parse2FieldAttr (metaToTokens p m) = .error "unexpected token" := by
  cases m <;> rfl

theorem countDispose_cons (a : RsAttr) (t : List RsAttr) :
    countDispose (a :: t) = (if a.path = "dispose" then 1 else 0) + countDispose t := by
  by_cases hp : a.path = "dispose" <;>
    simp [countDispose, List.filter_cons, hp, Nat.add_comm]

theorem innerDiags_cons (a : RsAttr) (t : List RsAttr) :
    innerDiags (a :: t) =
      (if a.style = .inner then [Diag.innerAttr] else []) ++ innerDiags t := by
  simp only [innerDiags, List.filterMap_cons]
  split <;> simp_all

theorem innerDiags_mem (attrs : List RsAttr) (d : Diag) (h : d ∈ innerDiags attrs) :
    d = .innerAttr := by
  simp only [innerDiags, List.mem_filterMap] at h
  obtain ⟨a, -, ha⟩ := h
  by_cases hs : a.style = AttrStyle.inner
  · rw [if_pos hs] at ha; exact (Option.some_inj.mp ha).symm
  · rw [if_neg hs] at ha; cases ha

theorem aggAttrDiags_mem (attrs : List RsAttr) (d : Diag) (h : d ∈ aggAttrDiags attrs) :
    d = .unexpectedAttr := by
  simp only [aggAttrDiags, List.mem_filterMap] at h
  obtain ⟨a, -, ha⟩ := h
  by_cases hs : a.path = "dispose"
  · rw [if_pos hs] at ha; exact (Option.some_inj.mp ha).symm
  · rw [if_neg hs] at ha; cases ha

theorem pfa_foldl_no_dispose (attrs : List RsAttr) :
    ∀ s : PfaState, countDispose attrs = 0 →
      attrs.foldl pfaStep s = ⟨s.ret, s.n, s.diags ++ innerDiags attrs⟩ := by
  induction attrs with
  | nil => intro s _; simp [innerDiags]
  | cons a t ih =>
    intro s h
    rw [countDispose_cons] at h
    have ha : ¬ a.path = "dispose" := by
      intro hp
      rw [if_pos hp] at h
      omega
    have ht : countDispose t = 0 := by
      rw [if_neg ha] at h
      omega
    rw [List.foldl_cons]
    have hstep : pfaStep s a =
        { s with diags := s.diags ++ (if a.style = .inner then [Diag.innerAttr] else []) } := by
      simp [pfaStep, if_neg ha]
    rw [hstep, ih _ ht, innerDiags_cons]
    simp

theorem pfa_foldl_err_preserved (attrs : List RsAttr) :
    ∀ s : PfaState, 0 < s.n → isOkE s.ret = false →
      isOkE (attrs.foldl pfaStep s).ret = false ∧ 0 < (attrs.foldl pfaStep s).n := by
  induction attrs with
  | nil => intro s hn hr; exact ⟨hr, hn⟩
  | cons a t ih =>
    intro s hn hr
    rw [List.foldl_cons]
    by_cases ha : a.path = "dispose"
    · have hstep : pfaStep s a =
          { ret := .error "Duplicate #[dispose] attribute", n := s.n + 1,
            diags := (s.diags ++ (if a.style = .inner then [Diag.innerAttr] else []))
              ++ [.duplicateAttr] } := by
        simp [pfaStep, if_pos ha, if_pos hn]
      rw [hstep]
      exact ih _ (Nat.succ_pos _) rfl
    · have hstep : pfaStep s a =
          { s with diags := s.diags ++ (if a.style = .inner then [Diag.innerAttr] else []) } := by
        simp [pfaStep, if_neg ha]
      rw [hstep]
      exact ih _ hn hr

theorem pfa_foldl_dispose_err (attrs : List RsAttr) :
    ∀ s : PfaState, 0 < countDispose attrs →
      isOkE (attrs.foldl pfaStep s).ret = false := by
  induction attrs with
  | nil => intro s h; simp [countDispose] at h
  | cons a t ih =>
    intro s h
    rw [List.foldl_cons]
    by_cases ha : a.path = "dispose"
    · by_cases hn : 0 < s.n
      · have hstep : pfaStep s a =
            { ret := .error "Duplicate #[dispose] attribute", n := s.n + 1,
              diags := (s.diags ++ (if a.style = .inner then [Diag.innerAttr] else []))
                ++ [.duplicateAttr] } := by
          simp [pfaStep, if_pos ha, if_pos hn]
        rw [hstep]
        refine (pfa_foldl_err_preserved t _ ?_ ?_).1
        · exact Nat.succ_pos _
        · rfl
      · have hstep : pfaStep s a =
            { ret := .error "unexpected token", n := s.n + 1,
              diags := (s.diags ++ (if a.style = .inner then [Diag.innerAttr] else []))
                ++ [.parseFailed "unexpected token"] } := by
          simp [pfaStep, if_pos ha, if_neg hn, parse2_metaToTokens_error]
        rw [hstep]
        refine (pfa_foldl_err_preserved t _ ?_ ?_).1
        · exact Nat.succ_pos _
        · rfl
    · rw [countDispose_cons, if_neg ha] at h
      have hstep : pfaStep s a =
          { s with diags := s.diags ++ (if a.style = .inner then [Diag.innerAttr] else []) } := by
        simp [pfaStep, if_neg ha]
      rw [hstep]
      exact ih _ (by omega)

theorem expandSelf_of_not_mentions (nm : Member → String) :
    ∀ e : MExpr, mentionsSelf e = false → expandSelf nm e = e := by
  intro e
  induction e with
  | path s => intro _; rfl
  | lit n => intro _; rfl
  | field b m ih =>
    intro h
    by_cases hb : b = MExpr.path "self"
    · subst hb; simp [mentionsSelf] at h
    · simp only [expandSelf, if_neg hb]
      rw [ih (by simpa [mentionsSelf] using h)]
  | call f a ihf iha =>
    intro h
    simp only [mentionsSelf, Bool.or_eq_false_iff] at h
    simp only [expandSelf]
    rw [ihf h.1, iha h.2]
  | itemNode b ih => intro _; rfl

theorem expandSelf_ne_self_path (nm : Member → String) (hnm : ∀ m, nm m ≠ "self") :
    ∀ e : MExpr, e ≠ .path "self" → expandSelf nm e ≠ .path "self" := by
  intro e he
  cases e with
  | path s =>
    simpa only [expandSelf] using he
  | lit n => simp [expandSelf]
  | field b m =>
    by_cases hb : b = MExpr.path "self"
    · simp only [expandSelf, if_pos hb]
      intro h
      exact hnm m (by injection h)
    · simp [expandSelf, if_neg hb]
  | call f a => simp [expandSelf]
  | itemNode b => simp [expandSelf]

theorem hasSelfField_expandSelf (nm : Member → String) (hnm : ∀ m, nm m ≠ "self") :
    ∀ e : MExpr, hasSelfField (expandSelf nm e) = false := by
  intro e
  induction e with
  | path s => rfl
  | lit n => rfl
  | field b m ih =>
    by_cases hb : b = MExpr.path "self"
    · simp [expandSelf, if_pos hb, hasSelfField]
    · simp only [expandSelf, if_neg hb, hasSelfField]
      rw [if_neg (expandSelf_ne_self_path nm hnm b hb)]
      exact ih
  | call f a ihf iha => simp [expandSelf, hasSelfField, ihf, iha]
  | itemNode b ih => rfl

theorem itemsOf_expandSelf (nm : Member → String) :
    ∀ e : MExpr, itemsOf (expandSelf nm e) = itemsOf e := by
  intro e
  induction e with
  | path s => rfl
  | lit n => rfl
  | field b m ih =>
    by_cases hb : b = MExpr.path "self"
    · subst hb; simp [expandSelf, itemsOf]
    · simp only [expandSelf, if_neg hb, itemsOf]; exact ih
  | call f a ihf iha => simp only [expandSelf, itemsOf]; rw [ihf, iha]
  | itemNode b ih => rfl

theorem string_append_cancel_left (s a b : String) (h : s ++ a = s ++ b) : a = b := by
  apply String.ext
  have hd := congrArg String.data h
  simpa [String.data_append] using hd

theorem pfa_foldl_dup_count (attrs : List RsAttr) :
    ∀ s : PfaState,
      (attrs.foldl pfaStep s).diags.count Diag.duplicateAttr =
        s.diags.count Diag.duplicateAttr +
          (if s.n = 0 then countDispose attrs - 1 else countDispose attrs) := by
  induction attrs with
  | nil => intro s; simp [countDispose]
  | cons a t ih =>
    intro s
    rw [List.foldl_cons]
    by_cases ha : a.path = "dispose"
    · by_cases hn : 0 < s.n
      · have hstep : pfaStep s a =
            { ret := .error "Duplicate #[dispose] attribute", n := s.n + 1,
              diags := (s.diags ++ (if a.style = .inner then [Diag.innerAttr] else []))
                ++ [.duplicateAttr] } := by
          simp [pfaStep, if_pos ha, if_pos hn]
        rw [hstep, ih]
        rw [countDispose_cons, if_pos ha]
        have h1 : ¬ (s.n + 1 = 0) := by omega
        have h2 : ¬ (s.n = 0) := by omega
        rw [if_neg h1, if_neg h2]
        by_cases hstyle : a.style = AttrStyle.inner <;>
          simp [hstyle, List.count_append] <;> omega
      · have hstep : pfaStep s a =
            { ret := .error "unexpected token", n := s.n + 1,
              diags := (s.diags ++ (if a.style = .inner then [Diag.innerAttr] else []))
                ++ [.parseFailed "unexpected token"] } := by
          simp [pfaStep, if_pos ha, if_neg hn, parse2_metaToTokens_error]
        rw [hstep, ih]
        rw [countDispose_cons, if_pos ha]
        have h1 : ¬ (s.n + 1 = 0) := by omega
        have h2 : s.n = 0 := by omega
        rw [if_neg h1, if_pos h2]
        by_cases hstyle : a.style = AttrStyle.inner <;>
          simp [hstyle, List.count_append]
    · have hstep : pfaStep s a =
          { s with diags := s.diags ++ (if a.style = .inner then [Diag.innerAttr] else []) } := by
        simp [pfaStep, if_neg ha]
      rw [hstep, ih]
      rw [countDispose_cons, if_neg ha]
      by_cases hstyle : a.style = AttrStyle.inner <;>
        simp [hstyle, List.count_append]

theorem pfaStep_diag_len_ge (s : PfaState) (a : RsAttr) :
    s.diags.length ≤ (pfaStep s a).diags.length := by
  by_cases hstyle : a.style = AttrStyle.inner <;>
  by_cases ha : a.path = "dispose" <;>
  by_cases hn : 0 < s.n <;>
  simp [pfaStep, hstyle, ha, hn, parse2_metaToTokens_error, List.length_append]

theorem pfaStep_diag_len_succ (s : PfaState) (a : RsAttr) (ha : a.path = "dispose") :
    s.diags.length + 1 ≤ (pfaStep s a).diags.length := by
  by_cases hstyle : a.style = AttrStyle.inner <;>
  by_cases hn : 0 < s.n <;>
  simp [pfaStep, hstyle, ha, hn, parse2_metaToTokens_error, List.length_append]

theorem pfa_foldl_diag_len (attrs : List RsAttr) :
    ∀ s : PfaState,
      s.diags.length + countDispose attrs ≤ (attrs.foldl pfaStep s).diags.length := by
  induction attrs with
  | nil => intro s; simp [countDispose]
  | cons a t ih =>
    intro s
    rw [List.foldl_cons, countDispose_cons]
    have hih := ih (pfaStep s a)
    by_cases ha : a.path = "dispose"
    · have hstep := pfaStep_diag_len_succ s a ha
      rw [if_pos ha]
      omega
    · have hstep := pfaStep_diag_len_ge s a
      rw [if_neg ha]
      omega

theorem parseFieldAttrs_dup_count (attrs : List RsAttr) :
    (parseFieldAttrs attrs).1.count Diag.duplicateAttr = countDispose attrs - 1 := by
  have h := pfa_foldl_dup_count attrs ⟨.ok none, 0, []⟩
  simpa [parseFieldAttrs] using h

theorem parseFieldAttrs_no_dispose (attrs : List RsAttr) (h : countDispose attrs = 0) :
    parseFieldAttrs attrs = (innerDiags attrs, .ok none) := by
  simp [parseFieldAttrs, pfa_foldl_no_dispose attrs _ h]

theorem parseFieldAttrs_err (attrs : List RsAttr) (h : 0 < countDispose attrs) :
    isOkE (parseFieldAttrs attrs).2 = false :=
  pfa_foldl_dispose_err attrs _ h

theorem parseFieldAttrs_err_diags (attrs : List RsAttr) (h : 0 < countDispose attrs) :
    (parseFieldAttrs attrs).1 ≠ [] := by
  have hlen := pfa_foldl_diag_len attrs ⟨.ok none, 0, []⟩
  simp only [parseFieldAttrs]
  intro hnil
  rw [hnil] at hlen
  simp at hlen
  omega

theorem parseFieldAttrs_ok_countDispose (attrs : List RsAttr)
    (h : isOkE (parseFieldAttrs attrs).2 = true) : countDispose attrs = 0 := by
  by_contra hc
  rw [parseFieldAttrs_err attrs (Nat.pos_of_ne_zero hc)] at h
  cases h

theorem countDispose_pos_of_mem (attrs : List RsAttr) (a : RsAttr)
    (ha : a ∈ attrs) (hp : a.path = "dispose") : 0 < countDispose attrs := by
  have : a ∈ attrs.filter (fun x => x.path = "dispose") :=
    List.mem_filter.mpr ⟨ha, by simp [hp]⟩
  have hne : attrs.filter (fun x => x.path = "dispose") ≠ [] := by
    intro hnil; rw [hnil] at this; cases this
  simpa [countDispose] using List.length_pos.mpr hne

theorem handleField_err (dm : FieldMode) (nm : Member → String) (idx : Nat) (f : SField)
    (h : isOkE (parseFieldAttrs f.attrs).2 = false) :
    handleField dm nm idx f = ((parseFieldAttrs f.attrs).1, .error ()) := by
  cases hp : (parseFieldAttrs f.attrs).2 with
  | error e => simp [handleField, hp]
  | ok a => rw [hp] at h; simp [isOkE] at h

theorem handleField_ok (dm : FieldMode) (nm : Member → String) (idx : Nat) (f : SField)
    (a : Option FieldAttr) (h : (parseFieldAttrs f.attrs).2 = .ok a) :
    handleField dm nm idx f = ((parseFieldAttrs f.attrs).1,
      .ok (stmtFor nm (nm (fieldToMember idx f)) f.ty (resolveMode dm f))) := by
  cases a with
  | none => simp [handleField, h, resolveMode]
  | some fa => simp [handleField, h, resolveMode]

theorem disposeFieldsGo_ok (dm : FieldMode) (nm : Member → String) :
    ∀ (l : List SField) (i : Nat) (ss : List Stmt),
      (disposeFieldsGo dm nm i l).2 = .ok ss → ss = stmtsOfOkGo dm nm i l := by
  intro l
  induction l with
  | nil =>
    intro i ss h
    simp [disposeFieldsGo] at h
    simp [stmtsOfOkGo, ← h]
  | cons f fs ih =>
    intro i ss h
    cases hp : (parseFieldAttrs f.attrs).2 with
    | error e =>
      have he := handleField_err dm nm i f (by rw [hp]; rfl)
      simp [disposeFieldsGo, he] at h
    | ok a =>
      have hk := handleField_ok dm nm i f a hp
      simp only [disposeFieldsGo, hk] at h
      cases hr : (disposeFieldsGo dm nm (i + 1) fs).2 with
      | error u => rw [hr] at h; simp at h
      | ok ss2 =>
        rw [hr] at h
        simp at h
        rw [stmtsOfOkGo, ← ih (i + 1) ss2 hr, ← h]

theorem disposeFieldsGo_ok_diags (dm : FieldMode) (nm : Member → String) :
    ∀ (l : List SField) (i : Nat),
      isOkE (disposeFieldsGo dm nm i l).2 = true →
      ∀ d ∈ (disposeFieldsGo dm nm i l).1, d = .innerAttr := by
  intro l
  induction l with
  | nil => intro i _ d hd; simp [disposeFieldsGo] at hd
  | cons f fs ih =>
    intro i hok d hd
    cases hp : (parseFieldAttrs f.attrs).2 with
    | error e =>
      have he := handleField_err dm nm i f (by rw [hp]; rfl)
      simp [disposeFieldsGo, he, isOkE] at hok
    | ok a =>
      have hk := handleField_ok dm nm i f a hp
      have hcd : countDispose f.attrs = 0 :=
        parseFieldAttrs_ok_countDispose f.attrs (by rw [hp]; rfl)
      have hpfa := parseFieldAttrs_no_dispose f.attrs hcd
      cases hr : (disposeFieldsGo dm nm (i + 1) fs).2 with
      | error u =>
        simp only [disposeFieldsGo, hk, hr] at hok
        simp [isOkE] at hok
      | ok ss2 =>
        simp only [disposeFieldsGo, hk, hr] at hd
        simp only [List.mem_append] at hd
        cases hd with
        | inl hd =>
          apply innerDiags_mem f.attrs
          have : (parseFieldAttrs f.attrs).1 = innerDiags f.attrs := by rw [hpfa]
          rwa [this] at hd
        | inr hd =>
          exact ih (i + 1) (by rw [hr]; rfl) d hd

theorem disposeFieldsGo_err_diags (dm : FieldMode) (nm : Member → String) :
    ∀ (l : List SField) (i : Nat),
      isOkE (disposeFieldsGo dm nm i l).2 = false →
      (disposeFieldsGo dm nm i l).1 ≠ [] := by
  intro l
  induction l with
  | nil => intro i h; simp [disposeFieldsGo, isOkE] at h
  | cons f fs ih =>
    intro i herr
    cases hp : (parseFieldAttrs f.attrs).2 with
    | error e =>
      have he := handleField_err dm nm i f (by rw [hp]; rfl)
      simp only [disposeFieldsGo, he]
      have hcd : 0 < countDispose f.attrs := by
        by_contra hc
        have h0 : countDispose f.attrs = 0 := by omega
        rw [parseFieldAttrs_no_dispose f.attrs h0] at hp
        cases hp
      exact parseFieldAttrs_err_diags f.attrs hcd
    | ok a =>
      have hk := handleField_ok dm nm i f a hp
      cases hr : (disposeFieldsGo dm nm (i + 1) fs).2 with
      | error u =>
        simp only [disposeFieldsGo, hk, hr]
        have := ih (i + 1) (by rw [hr]; rfl)
        simp [this]
      | ok ss2 =>
        simp only [disposeFieldsGo, hk, hr] at herr
        simp [isOkE] at herr

theorem disposeFieldsGo_halt (dm : FieldMode) (nm : Member → String) (f : SField)
    (hf : isOkE (parseFieldAttrs f.attrs).2 = false) :
    ∀ (pre : List SField) (i : Nat) (post post' : List SField),
      disposeFieldsGo dm nm i (pre ++ f :: post) =
        disposeFieldsGo dm nm i (pre ++ f :: post') := by
  intro pre
  induction pre with
  | nil =>
    intro i post post'
    have he := handleField_err dm nm i f hf
    simp [disposeFieldsGo, he]
  | cons p pre ih =>
    intro i post post'
    cases hp : (parseFieldAttrs p.attrs).2 with
    | error e =>
      have he := handleField_err dm nm i p (by rw [hp]; rfl)
      simp [disposeFieldsGo, he]
    | ok a =>
      have hk := handleField_ok dm nm i p a hp
      simp only [List.cons_append, disposeFieldsGo, hk, List.append_eq]
      rw [ih (i + 1) post post']

theorem disposeFieldsGo_err_of_mem (dm : FieldMode) (nm : Member → String) :
    ∀ (l : List SField) (i : Nat) (f : SField), f ∈ l →
      isOkE (parseFieldAttrs f.attrs).2 = false →
      isOkE (disposeFieldsGo dm nm i l).2 = false := by
  intro l
  induction l with
  | nil => intro i f hf; cases hf
  | cons g fs ih =>
    intro i f hf herr
    cases hp : (parseFieldAttrs g.attrs).2 with
    | error e =>
      have he := handleField_err dm nm i g (by rw [hp]; rfl)
      simp [disposeFieldsGo, he, isOkE]
    | ok a =>
      have hk := handleField_ok dm nm i g a hp
      cases hf with
      | head => rw [hp] at herr; cases herr
      | tail _ hmem =>
        have := ih (i + 1) f hmem herr
        cases hr : (disposeFieldsGo dm nm (i + 1) fs).2 with
        | error u => simp [disposeFieldsGo, hk, hr, isOkE]
        | ok ss2 => rw [hr] at this; cases this

theorem disposeFields_ok (dm : FieldMode) (nm : Member → String) (shape : FieldsShape)
    (ss : List Stmt) (h : (disposeFields dm nm shape).2 = .ok ss) :
    ss = stmtsOfOk dm nm shape := by
  cases shape with
  | named l => exact disposeFieldsGo_ok dm nm l 0 ss h
  | unnamed l => exact disposeFieldsGo_ok dm nm l 0 ss h
  | unit => simp [disposeFields] at h; simp [stmtsOfOk, ← h]

theorem disposeFields_ok_diags (dm : FieldMode) (nm : Member → String) (shape : FieldsShape)
    (h : isOkE (disposeFields dm nm shape).2 = true) :
    ∀ d ∈ (disposeFields dm nm shape).1, d = .innerAttr := by
  cases shape with
  | named l => exact disposeFieldsGo_ok_diags dm nm l 0 h
  | unnamed l => exact disposeFieldsGo_ok_diags dm nm l 0 h
  | unit => intro d hd; simp [disposeFields] at hd

theorem disposeFields_err_diags (dm : FieldMode) (nm : Member → String) (shape : FieldsShape)
    (h : isOkE (disposeFields dm nm shape).2 = false) :
    (disposeFields dm nm shape).1 ≠ [] := by
  cases shape with
  | named l => exact disposeFieldsGo_err_diags dm nm l 0 h
  | unnamed l => exact disposeFieldsGo_err_diags dm nm l 0 h
  | unit => simp [disposeFields, isOkE] at h

theorem disposeFields_err_of_mem (dm : FieldMode) (nm : Member → String) (shape : FieldsShape)
    (f : SField) (hf : f ∈ fieldsOf shape)
    (herr : isOkE (parseFieldAttrs f.attrs).2 = false) :
    isOkE (disposeFields dm nm shape).2 = false := by
  cases shape with
  | named l => exact disposeFieldsGo_err_of_mem dm nm l 0 f hf herr
  | unnamed l => exact disposeFieldsGo_err_of_mem dm nm l 0 f hf herr
  | unit => cases hf

theorem stmtsOfOkGo_length (dm : FieldMode) (nm : Member → String) :
    ∀ (l : List SField) (i : Nat), (stmtsOfOkGo dm nm i l).length = l.length := by
  intro l
  induction l with
  | nil => intro i; rfl
  | cons f fs ih => intro i; simp [stmtsOfOkGo, ih]

theorem stmtsOfOk_length (dm : FieldMode) (nm : Member → String) (shape : FieldsShape) :
    (stmtsOfOk dm nm shape).length = numFields shape := by
  cases shape with
  | named l => exact stmtsOfOkGo_length dm nm l 0
  | unnamed l => exact stmtsOfOkGo_length dm nm l 0
  | unit => rfl

theorem stmtSubject_stmtFor (nm : Member → String) (n ty : String) (mode : FieldMode)
    (b : String) (h : stmtSubject (stmtFor nm n ty mode) = some b) : b = n := by
  cases mode with
  | dispose it => cases it <;> simpa [stmtFor, stmtSubject] using h.symm
  | disposeWith it w => cases it <;> simpa [stmtFor, stmtSubject] using h.symm
  | ignore => simp [stmtFor, stmtSubject] at h

theorem namedBindsGo_map_snd (nm : Member → String) :
    ∀ (l : List SField) (i : Nat),
      (namedBindsGo nm i l).map Prod.snd = unnamedBindsGo nm i l := by
  intro l
  induction l with
  | nil => intro i; rfl
  | cons f fs ih => intro i; simp [namedBindsGo, unnamedBindsGo, ih]

theorem subject_mem_unnamedBinds (dm : FieldMode) (nm : Member → String) :
    ∀ (l : List SField) (i : Nat) (s : Stmt), s ∈ stmtsOfOkGo dm nm i l →
      ∀ b, stmtSubject s = some b → b ∈ unnamedBindsGo nm i l := by
  intro l
  induction l with
  | nil => intro i s hs; cases hs
  | cons f fs ih =>
    intro i s hs b hb
    cases hs with
    | head =>
      have := stmtSubject_stmtFor nm (nm (fieldToMember i f)) f.ty (resolveMode dm f) b hb
      rw [this]
      exact List.mem_cons_self _ _
    | tail _ hmem =>
      exact List.mem_cons_of_mem _ (ih (i + 1) s hmem b hb)

theorem subject_mem_binds (dm : FieldMode) (nm : Member → String) (shape : FieldsShape)
    (s : Stmt) (hs : s ∈ stmtsOfOk dm nm shape) (b : String)
    (hb : stmtSubject s = some b) : b ∈ (destructureFields nm shape).binds := by
  cases shape with
  | named l =>
    have := subject_mem_unnamedBinds dm nm l 0 s hs b hb
    simpa [destructureFields, Pattern.binds, namedBindsGo_map_snd] using this
  | unnamed l =>
    exact subject_mem_unnamedBinds dm nm l 0 s hs b hb
  | unit => cases hs

theorem resolveMode_no_dispose (dm : FieldMode) (f : SField)
    (h : countDispose f.attrs = 0) : resolveMode dm f = dm := by
  simp [resolveMode, parseFieldAttrs_no_dispose f.attrs h]

theorem stmtsOfOkGo_plain (nm : Member → String) :
    ∀ (l : List SField) (i : Nat), (∀ f ∈ l, countDispose f.attrs = 0) →
      ∀ s ∈ stmtsOfOkGo (.dispose false) nm i l, ∃ ty n, s = .dispose ty n := by
  intro l
  induction l with
  | nil => intro i _ s hs; cases hs
  | cons f fs ih =>
    intro i hcd s hs
    cases hs with
    | head =>
      rw [resolveMode_no_dispose _ f (hcd f (List.mem_cons_self _ _))]
      exact ⟨f.ty, nm (fieldToMember i f), rfl⟩
    | tail _ hmem =>
      exact ih (i + 1) (fun g hg => hcd g (List.mem_cons_of_mem _ hg)) s hmem

theorem deriveEnumGo_ok (dm : FieldMode) :
    ∀ (vs : List Variant) (arms : List Arm),
      (deriveEnumGo dm vs).2 = .ok arms → arms = vs.map (armOfOk dm) := by
  intro vs
  induction vs with
  | nil => intro arms h; simp [deriveEnumGo] at h; simp [← h]
  | cons v vs ih =>
    intro arms h
    cases hr : (disposeFields dm (fieldNameEnum v.name) v.fields).2 with
    | error u => simp [deriveEnumGo, hr] at h
    | ok ss =>
      simp only [deriveEnumGo, hr] at h
      cases hrest : (deriveEnumGo dm vs).2 with
      | error u => rw [hrest] at h; simp at h
      | ok arms2 =>
        rw [hrest] at h
        simp at h
        rw [List.map_cons, ← ih arms2 hrest, ← h]
        have hss := disposeFields_ok dm (fieldNameEnum v.name) v.fields ss hr
        simp [armOfOk, hss]

theorem deriveEnumGo_ok_diags (dm : FieldMode) :
    ∀ (vs : List Variant), isOkE (deriveEnumGo dm vs).2 = true →
      ∀ d ∈ (deriveEnumGo dm vs).1, d = .innerAttr := by
  intro vs
  induction vs with
  | nil => intro _ d hd; simp [deriveEnumGo] at hd
  | cons v vs ih =>
    intro hok d hd
    cases hr : (disposeFields dm (fieldNameEnum v.name) v.fields).2 with
    | error u => simp [deriveEnumGo, hr, isOkE] at hok
    | ok ss =>
      cases hrest : (deriveEnumGo dm vs).2 with
      | error u =>
        simp only [deriveEnumGo, hr, hrest] at hok
        simp [isOkE] at hok
      | ok arms2 =>
        simp only [deriveEnumGo, hr, hrest] at hd
        simp only [List.mem_append] at hd
        cases hd with
        | inl hd =>
          exact disposeFields_ok_diags dm (fieldNameEnum v.name) v.fields (by rw [hr]; rfl) d hd
        | inr hd =>
          exact ih (by rw [hrest]; rfl) d hd

theorem deriveEnumGo_err_diags (dm : FieldMode) :
    ∀ (vs : List Variant), isOkE (deriveEnumGo dm vs).2 = false →
      (deriveEnumGo dm vs).1 ≠ [] := by
  intro vs
  induction vs with
  | nil => intro h; simp [deriveEnumGo, isOkE] at h
  | cons v vs ih =>
    intro herr
    cases hr : (disposeFields dm (fieldNameEnum v.name) v.fields).2 with
    | error u =>
      simp only [deriveEnumGo, hr]
      exact disposeFields_err_diags dm (fieldNameEnum v.name) v.fields (by rw [hr]; rfl)
    | ok ss =>
      cases hrest : (deriveEnumGo dm vs).2 with
      | error u =>
        simp only [deriveEnumGo, hr, hrest]
        have := ih (by rw [hrest]; rfl)
        simp [this]
      | ok arms2 =>
        simp only [deriveEnumGo, hr, hrest] at herr
        simp [isOkE] at herr

theorem deriveEnumGo_halt (dm : FieldMode) (v : Variant)
    (hv : isOkE (disposeFields dm (fieldNameEnum v.name) v.fields).2 = false) :
    ∀ (pre post post' : List Variant),
      deriveEnumGo dm (pre ++ v :: post) = deriveEnumGo dm (pre ++ v :: post') := by
  intro pre
  induction pre with
  | nil =>
    intro post post'
    cases hr : (disposeFields dm (fieldNameEnum v.name) v.fields).2 with
    | error u => simp [deriveEnumGo, hr]
    | ok ss => rw [hr] at hv; cases hv
  | cons u pre ih =>
    intro post post'
    cases hr : (disposeFields dm (fieldNameEnum u.name) u.fields).2 with
    | error e => simp [deriveEnumGo, hr]
    | ok ss =>
      simp only [List.cons_append, deriveEnumGo, hr, List.append_eq]
      rw [ih post post']

theorem deriveEnumGo_err_of_mem (dm : FieldMode) :
    ∀ (vs : List Variant) (v : Variant), v ∈ vs →
      isOkE (disposeFields dm (fieldNameEnum v.name) v.fields).2 = false →
      isOkE (deriveEnumGo dm vs).2 = false := by
  intro vs
  induction vs with
  | nil => intro v hv; cases hv
  | cons u vs ih =>
    intro v hv herr
    cases hr : (disposeFields dm (fieldNameEnum u.name) u.fields).2 with
    | error e => simp [deriveEnumGo, hr, isOkE]
    | ok ss =>
      cases hv with
      | head => rw [hr] at herr; cases herr
      | tail _ hmem =>
        have := ih v hmem herr
        cases hrest : (deriveEnumGo dm vs).2 with
        | error u2 => simp [deriveEnumGo, hr, hrest, isOkE]
        | ok arms2 => rw [hrest] at this; cases this

theorem stmtsOfOk_nil_of_numFields (dm : FieldMode) (nm : Member → String)
    (shape : FieldsShape) (h : numFields shape = 0) : stmtsOfOk dm nm shape = [] := by
  cases shape with
  | named l =>
    have : l = [] := List.length_eq_zero.mp h
    subst this; rfl
  | unnamed l =>
    have : l = [] := List.length_eq_zero.mp h
    subst this; rfl
  | unit => rfl

theorem deriveImpl_none_of_field_err (input : DeriveInput) (f : SField)
    (hf : f ∈ fieldsOfInput input)
    (herr : isOkE (parseFieldAttrs f.attrs).2 = false) :
    (deriveDisposeImpl input).2 = none := by
  obtain ⟨name, attrs, data⟩ := input
  cases data with
  | structData fs =>
    have hsf : isOkE (disposeFields defaultFieldMode fieldNameStruct fs).2 = false :=
      disposeFields_err_of_mem _ _ fs f hf herr
    cases hr : (disposeFields defaultFieldMode fieldNameStruct fs).2 with
    | error u => simp [deriveDisposeImpl, deriveDisposeStruct, hr]
    | ok ss => rw [hr] at hsf; cases hsf
  | enumData vs =>
    simp only [fieldsOfInput, List.mem_flatten] at hf
    obtain ⟨l, hl, hfl⟩ := hf
    obtain ⟨v, hv, rfl⟩ := List.mem_map.mp hl
    have hvf : isOkE (disposeFields defaultFieldMode (fieldNameEnum v.name) v.fields).2 = false :=
      disposeFields_err_of_mem _ _ _ f hfl herr
    have henum := deriveEnumGo_err_of_mem defaultFieldMode vs v hv hvf
    cases hr : (deriveEnumGo defaultFieldMode vs).2 with
    | error u => simp [deriveDisposeImpl, deriveDisposeEnum, hr]
    | ok arms => rw [hr] at henum; cases henum
  | unionData fs => simp [deriveDisposeImpl]

/-! ### Claim theorems -/

/-- C6: the Expression Rewriter replaces every direct member access on the
aggregate instance (`self.member`) with the identifier produced by the
naming function for that member, leaves expressions that do not mention the
aggregate unchanged, and does not descend into nested item definitions, so a
self-reference inside a nested definition is left untouched (items are
preserved verbatim, and no direct self-member access survives outside
items). -/
theorem c6_rewriter_replaces_self_members (nm : Member → String)
    (hnm : ∀ m, nm m ≠ "self") :
    (∀ m, expandSelf nm (.field (.path "self") m) = .path (nm m)) ∧
    (∀ e, mentionsSelf e = false → expandSelf nm e = e) ∧
    (∀ b, expandSelf nm (.itemNode b) = .itemNode b) ∧
    (∀ e, itemsOf (expandSelf nm e) = itemsOf e) ∧
    (∀ e, hasSelfField (expandSelf nm e) = false) :=
  ⟨fun m => by simp [expandSelf], expandSelf_of_not_mentions nm, fun _ => rfl,
    itemsOf_expandSelf nm, hasSelfField_expandSelf nm hnm⟩

/-- Witness for C6 at a concrete naming function and expressions. -/
theorem c6_rewriter_replaces_self_members_witness :
    expandSelf (fun _ => "b0") (.field (.path "self") (.named "x")) = .path "b0" ∧
    expandSelf (fun _ => "b0") (.itemNode (.field (.path "self") (.named "x"))) =
      .itemNode (.field (.path "self") (.named "x")) := by
  have h := c6_rewriter_replaces_self_members (fun _ => "b0")
    (fun _ => show ("b0" : String) ≠ "self" by decide)
  exact ⟨h.1 (.named "x"), h.2.2.1 _⟩

/-- C10: the leading member-access shorthand `. m` and the explicit full form
`self . m` parse into the two `WithVal` forms and expand to exactly the same
rewritten expression, namely the identifier the naming function produces for
`m`. -/
theorem c10_shorthand_full_form_equivalent (nm : Member → String) (m : Member) :
    withValFromToks (.punct '.' :: memberToks m) = .ok (.selfDot (memberToExpr m), []) ∧
    withValFromToks (.ident "self" :: .punct '.' :: memberToks m) =
      .ok (.expr (.field (.path "self") m), []) ∧
    WithVal.expand nm (.selfDot (memberToExpr m)) =
      WithVal.expand nm (.expr (.field (.path "self") m)) ∧
    WithVal.expand nm (.selfDot (memberToExpr m)) = .path (nm m) := by
  cases m <;> exact ⟨rfl, rfl, rfl, by simp [WithVal.expand, spliceSelf, expandSelf]⟩

/-- C7: a union-shaped aggregate always yields the fatal diagnostic, raised
before any destructuring or field codegen (the output does not depend on the
union's fields at all), and zero emitted implementation, regardless of field
annotations. -/
theorem c7_union_always_rejected (name : String) (attrs : List RsAttr)
    (fs fs' : List SField) :
    deriveDisposeImpl ⟨name, attrs, .unionData fs⟩ =
      (aggAttrDiags attrs ++ [.unionNotSupported], none) ∧
    deriveDisposeImpl ⟨name, attrs, .unionData fs⟩ =
      deriveDisposeImpl ⟨name, attrs, .unionData fs'⟩ ∧
    (deriveDisposeImpl ⟨name, attrs, .unionData fs⟩).1 ≠ [] := by
  refine ⟨rfl, rfl, ?_⟩
  simp [deriveDisposeImpl]

/-- C3 counterexample: the enum naming scheme is not injective across
variants of one enum.  The distinct (variant, member) pairs
(`V_fa`, `b`) and (`V`, `a_fb`) both produce `__dispose_self_vV_fa_fb`. -/
theorem c3_counterexample_name_collision :
    fieldNameEnum "V_fa" (.named "b") = fieldNameEnum "V" (.named "a_fb") ∧
    ¬("V_fa" = "V" ∧ Member.named "b" = Member.named "a_fb") := by
  exact ⟨by decide, by decide⟩

/-- C3 amended: the naming scheme deterministically folds both the variant
name and the member into the identifier, and within a single variant two
members whose name-or-index strings differ always get distinct identifiers;
injectivity across variants does not hold in general (see the
counterexample). -/
theorem c3_amended_distinct_within_variant (v : String) (m m' : Member)
    (h : memberToString m ≠ memberToString m') :
    fieldNameEnum v m = "__dispose_self_v" ++ v ++ "_f" ++ memberToString m ∧
    fieldNameEnum v m ≠ fieldNameEnum v m' :=
  ⟨rfl, fun hc => h (string_append_cancel_left _ _ _ hc)⟩

/-- Witness for the amended C3 at concrete names. -/
theorem c3_amended_distinct_within_variant_witness :
    fieldNameEnum "V" (.named "a") ≠ fieldNameEnum "V" (.named "b") :=
  (c3_amended_distinct_within_variant "V" (.named "a") (.named "b") (by decide)).2

/-- C1 counterexample: the output is not all-or-nothing.  A `dispose`
attribute attached to the aggregate itself produces a diagnostic, yet the
implementation is still emitted alongside it for this invocation. -/
theorem c1_counterexample_aggregate_attr_still_emits :
    (deriveDisposeImpl ⟨"S", [⟨.outer, "dispose", .path⟩], .structData (.named [])⟩).1 ≠ [] ∧
    ((deriveDisposeImpl
      ⟨"S", [⟨.outer, "dispose", .path⟩], .structData (.named [])⟩).2).isSome = true := by
  constructor
  · decide
  · decide

/-- C1 amended: emission is suppressed exactly by the fatal diagnostic
kinds.  When no implementation is emitted the diagnostics are non-empty, and
when an implementation is emitted every collected diagnostic is an
aggregate-level `dispose` attribute diagnostic or an inner-attribute-style
diagnostic — those two kinds do not suppress emission, while directive parse
failures, duplicate directives and the union diagnostic always do. -/
theorem c1_amended_suppression (input : DeriveInput) :
    ((deriveDisposeImpl input).2 = none → (deriveDisposeImpl input).1 ≠ []) ∧
    (∀ impl, (deriveDisposeImpl input).2 = some impl →
      ∀ d ∈ (deriveDisposeImpl input).1, d = .unexpectedAttr ∨ d = .innerAttr) := by
  obtain ⟨name, attrs, data⟩ := input
  cases data with
  | structData fs =>
    cases hr : (disposeFields defaultFieldMode fieldNameStruct fs).2 with
    | error u =>
      constructor
      · intro _
        have hne := disposeFields_err_diags defaultFieldMode fieldNameStruct fs
          (by rw [hr]; rfl)
        simp [deriveDisposeImpl, deriveDisposeStruct, hne]
      · intro impl himpl
        simp [deriveDisposeImpl, deriveDisposeStruct, hr] at himpl
    | ok ss =>
      constructor
      · intro hnone
        simp [deriveDisposeImpl, deriveDisposeStruct, hr] at hnone
      · intro impl _ d hd
        simp only [deriveDisposeImpl, deriveDisposeStruct, List.mem_append] at hd
        cases hd with
        | inl hda => exact Or.inl (aggAttrDiags_mem attrs d hda)
        | inr hdf =>
          exact Or.inr (disposeFields_ok_diags defaultFieldMode fieldNameStruct fs
            (by rw [hr]; rfl) d hdf)
  | enumData vs =>
    cases hr : (deriveEnumGo defaultFieldMode vs).2 with
    | error u =>
      constructor
      · intro _
        have hne := deriveEnumGo_err_diags defaultFieldMode vs (by rw [hr]; rfl)
        simp [deriveDisposeImpl, deriveDisposeEnum, hne]
      · intro impl himpl
        simp [deriveDisposeImpl, deriveDisposeEnum, hr] at himpl
    | ok arms =>
      constructor
      · intro hnone
        simp [deriveDisposeImpl, deriveDisposeEnum, hr] at hnone
      · intro impl _ d hd
        simp only [deriveDisposeImpl, deriveDisposeEnum, List.mem_append] at hd
        cases hd with
        | inl hda => exact Or.inl (aggAttrDiags_mem attrs d hda)
        | inr hdf =>
          exact Or.inr (deriveEnumGo_ok_diags defaultFieldMode vs (by rw [hr]; rfl) d hdf)
  | unionData fs =>
    constructor
    · intro _
      simp [deriveDisposeImpl]
    · intro impl himpl
      simp [deriveDisposeImpl] at himpl

/-- Witness for the amended C1: a union input has no implementation and a
non-empty diagnostics list. -/
theorem c1_amended_suppression_witness :
    (deriveDisposeImpl ⟨"U", [], .unionData []⟩).1 ≠ [] :=
  (c1_amended_suppression ⟨"U", [], .unionData []⟩).1 rfl

/-- C2 counterexample: scanning does halt at the first field whose directive
parsing fails.  A struct with two fields each carrying an erroring directive
collects exactly one diagnostic (for the first field) and the second field is
never scanned, while the claim requires one diagnostic per mistake. -/
theorem c2_counterexample_halts_at_first_bad_field :
    (deriveDisposeImpl ⟨"S", [], .structData (.named
      [⟨some "a", "T", [⟨.outer, "dispose", .list .paren [.ident "bogus"]⟩]⟩,
       ⟨some "b", "U", [⟨.outer, "dispose", .list .paren [.ident "bogus"]⟩]⟩])⟩).1.length
      = 1 ∧
    (deriveDisposeImpl ⟨"S", [], .structData (.named
      [⟨some "a", "T", [⟨.outer, "dispose", .list .paren [.ident "bogus"]⟩]⟩,
       ⟨some "b", "U", [⟨.outer, "dispose", .list .paren [.ident "bogus"]⟩]⟩])⟩).2
      = none := by
  constructor
  · decide
  · decide

/-- C2 amended: within one field's attribute list scanning continues past
errors — every extra `dispose` attribute contributes its own duplicate
diagnostic, so exactly (number of dispose attributes - 1) duplicate
diagnostics are collected — but across fields and across variants the pass
halts at the first element whose directive parsing fails: the field loop's
output does not depend on the fields after the failing field, and the
variant loop's output does not depend on the variants after the first
variant whose field processing fails, so later fields and variants are not
scanned and contribute no diagnostics. -/
theorem c2_amended_scan_behavior :
    (∀ attrs : List RsAttr,
      (parseFieldAttrs attrs).1.count Diag.duplicateAttr = countDispose attrs - 1) ∧
    (∀ (dm : FieldMode) (nm : Member → String) (i : Nat) (pre : List SField)
      (f : SField) (post post' : List SField),
      isOkE (parseFieldAttrs f.attrs).2 = false →
      disposeFieldsGo dm nm i (pre ++ f :: post) =
        disposeFieldsGo dm nm i (pre ++ f :: post')) ∧
    (∀ (dm : FieldMode) (v : Variant) (pre post post' : List Variant),
      isOkE (disposeFields dm (fieldNameEnum v.name) v.fields).2 = false →
      deriveEnumGo dm (pre ++ v :: post) = deriveEnumGo dm (pre ++ v :: post')) :=
  ⟨parseFieldAttrs_dup_count,
    fun dm nm i pre f post post' h => disposeFieldsGo_halt dm nm f h pre i post post',
    fun dm v pre post post' h => deriveEnumGo_halt dm v h pre post post'⟩

/-- Witness for the amended C2: with a failing first field the field loop's
output is identical whether or not a second field follows, and with a
failing first variant the variant loop's output is identical whether or not
a second variant follows. -/
theorem c2_amended_scan_behavior_witness :
    disposeFieldsGo defaultFieldMode fieldNameStruct 0
      ([] ++ (⟨some "a", "T", [⟨.outer, "dispose", .path⟩]⟩ : SField) ::
        [⟨some "b", "U", []⟩]) =
    disposeFieldsGo defaultFieldMode fieldNameStruct 0
      ([] ++ (⟨some "a", "T", [⟨.outer, "dispose", .path⟩]⟩ : SField) :: []) ∧
    deriveEnumGo defaultFieldMode
      ([] ++ (⟨"A", .named [⟨some "a", "T", [⟨.outer, "dispose", .path⟩]⟩]⟩ : Variant) ::
        [⟨"B", .unit⟩]) =
    deriveEnumGo defaultFieldMode
      ([] ++ (⟨"A", .named [⟨some "a", "T", [⟨.outer, "dispose", .path⟩]⟩]⟩ : Variant) :: []) :=
  ⟨c2_amended_scan_behavior.2.1 defaultFieldMode fieldNameStruct 0 []
      ⟨some "a", "T", [⟨.outer, "dispose", .path⟩]⟩ [⟨some "b", "U", []⟩] [] (by decide),
    c2_amended_scan_behavior.2.2 defaultFieldMode
      ⟨"A", .named [⟨some "a", "T", [⟨.outer, "dispose", .path⟩]⟩]⟩ []
      [⟨"B", .unit⟩] [] (by decide)⟩

/-- C4: Field Codegen emits exactly one statement per field, in declared
field order, determined by the field's resolved mode: a plain `dispose` call
for `Plain`, a `dispose_with` call with the rewritten expression for
`WithContext`, `dispose_iter` for `IteratePlain`, `dispose_iter_with` with
the rewritten expression for `IterateWithContext`, and no teardown call for
`Ignore`; in particular, under the driver's `Plain` default every field
without a directive gets exactly one plain teardown call in declared
order. -/
theorem c4_field_codegen_one_stmt_per_mode (dm : FieldMode) (nm : Member → String)
    (shape : FieldsShape) (ss : List Stmt)
    (h : (disposeFields dm nm shape).2 = .ok ss) :
    ss = stmtsOfOk dm nm shape ∧
    ss.length = numFields shape ∧
    (∀ (n ty : String) (w : WithVal),
      stmtFor nm n ty (.dispose false) = .dispose ty n ∧
      stmtFor nm n ty (.dispose true) = .disposeIter ty n ∧
      stmtFor nm n ty (.disposeWith false w) = .disposeWith ty n (w.expand nm) ∧
      stmtFor nm n ty (.disposeWith true w) = .disposeIterWith ty n (w.expand nm) ∧
      stmtFor nm n ty .ignore = .empty) ∧
    (dm = .dispose false → (∀ f ∈ fieldsOf shape, countDispose f.attrs = 0) →
      ∀ s ∈ ss, ∃ ty n, s = Stmt.dispose ty n) := by
  have h1 := disposeFields_ok dm nm shape ss h
  refine ⟨h1, ?_, fun n ty w => ⟨rfl, rfl, rfl, rfl, rfl⟩, ?_⟩
  · rw [h1, stmtsOfOk_length]
  · intro hdm hcd s hs
    subst hdm
    rw [h1] at hs
    cases shape with
    | named l => exact stmtsOfOkGo_plain nm l 0 hcd s hs
    | unnamed l => exact stmtsOfOkGo_plain nm l 0 hcd s hs
    | unit => simp [stmtsOfOk] at hs

/-- Witness for C4 at a concrete one-field struct without directives. -/
theorem c4_field_codegen_one_stmt_per_mode_witness :
    ([Stmt.dispose "T" "__dispose_self_fa"] : List Stmt).length =
      numFields (.named [⟨some "a", "T", []⟩]) :=
  (c4_field_codegen_one_stmt_per_mode defaultFieldMode fieldNameStruct
    (.named [⟨some "a", "T", []⟩]) [Stmt.dispose "T" "__dispose_self_fa"] rfl).2.1

/-- C5: for an enum the generated body is one dispatch with exactly one arm
per variant, in declaration order, with no synthesized default arm (every
arm is the constructor arm of its variant, and the arm list is exactly the
variant list mapped); an empty or unit variant yields an arm with an empty
body, and every teardown statement of an arm targets only that arm's own
destructuring bindings. -/
theorem c5_enum_one_arm_per_variant (dm : FieldMode) (vs : List Variant)
    (arms : List Arm) (h : (deriveDisposeEnum dm vs).2 = .ok arms) :
    arms = vs.map (armOfOk dm) ∧
    arms.length = vs.length ∧
    (∀ (i : Nat) (h1 : i < arms.length) (h2 : i < vs.length),
      (arms.get ⟨i, h1⟩).ctor = (vs.get ⟨i, h2⟩).name ∧
      (numFields (vs.get ⟨i, h2⟩).fields = 0 → (arms.get ⟨i, h1⟩).stmts = []) ∧
      (∀ s ∈ (arms.get ⟨i, h1⟩).stmts, ∀ b, stmtSubject s = some b →
        b ∈ (arms.get ⟨i, h1⟩).pat.binds)) := by
  have h1 := deriveEnumGo_ok dm vs arms h
  refine ⟨h1, by rw [h1, List.length_map], ?_⟩
  intro i hi1 hi2
  have hget : arms.get ⟨i, hi1⟩ = armOfOk dm (vs.get ⟨i, hi2⟩) := by
    subst h1
    simp [List.getElem_map]
  refine ⟨?_, ?_, ?_⟩
  · rw [hget]; rfl
  · intro h0
    rw [hget]
    exact stmtsOfOk_nil_of_numFields dm (fieldNameEnum (vs.get ⟨i, hi2⟩).name)
      (vs.get ⟨i, hi2⟩).fields h0
  · intro s hs b hb
    rw [hget] at hs ⊢
    exact subject_mem_binds dm (fieldNameEnum (vs.get ⟨i, hi2⟩).name)
      (vs.get ⟨i, hi2⟩).fields s hs b hb

/-- Witness for C5 at a concrete two-variant enum. -/
theorem c5_enum_one_arm_per_variant_witness :
    ([⟨"A", Pattern.unit, []⟩, ⟨"B", Pattern.unit, []⟩] : List Arm).length =
      ([⟨"A", .unit⟩, ⟨"B", .unit⟩] : List Variant).length :=
  (c5_enum_one_arm_per_variant defaultFieldMode [⟨"A", .unit⟩, ⟨"B", .unit⟩]
    [⟨"A", Pattern.unit, []⟩, ⟨"B", Pattern.unit, []⟩] rfl).2.1

/-- C8 counterexample: a field carrying two dispose directives does not
always lead to a duplicate-directive diagnostic.  When an earlier field's
directive parsing already failed, the later field's attribute list is never
scanned, so zero duplicate diagnostics are collected (the implementation is
still suppressed). -/
theorem c8_counterexample_unreached_duplicate :
    (deriveDisposeImpl ⟨"S", [], .structData (.named
      [⟨some "a", "T", [⟨.outer, "dispose", .list .paren [.ident "bogus"]⟩]⟩,
       ⟨some "b", "U", [⟨.outer, "dispose", .list .paren [.ident "ignore"]⟩,
                        ⟨.outer, "dispose", .list .paren [.ident "ignore"]⟩]⟩])⟩).1.count
        Diag.duplicateAttr = 0 ∧
    (deriveDisposeImpl ⟨"S", [], .structData (.named
      [⟨some "a", "T", [⟨.outer, "dispose", .list .paren [.ident "bogus"]⟩]⟩,
       ⟨some "b", "U", [⟨.outer, "dispose", .list .paren [.ident "ignore"]⟩,
                        ⟨.outer, "dispose", .list .paren [.ident "ignore"]⟩]⟩])⟩).2
      = none := by
  constructor
  · decide
  · decide

/-- C8 amended: for a field whose attribute scan is actually reached, k ≥ 2
dispose directives yield exactly k - 1 duplicate diagnostics (so at least
one, one per extra occurrence, the attribute list being scanned to its end)
and a failed parse result; and an invocation containing any field with two
or more dispose directives always emits zero implementation. -/
theorem c8_amended_duplicates :
    (∀ attrs : List RsAttr, 2 ≤ countDispose attrs →
      (parseFieldAttrs attrs).1.count Diag.duplicateAttr = countDispose attrs - 1 ∧
      1 ≤ (parseFieldAttrs attrs).1.count Diag.duplicateAttr ∧
      isOkE (parseFieldAttrs attrs).2 = false) ∧
    (∀ (input : DeriveInput) (f : SField), f ∈ fieldsOfInput input →
      2 ≤ countDispose f.attrs → (deriveDisposeImpl input).2 = none) := by
  constructor
  · intro attrs h2
    refine ⟨parseFieldAttrs_dup_count attrs, ?_, parseFieldAttrs_err attrs (by omega)⟩
    rw [parseFieldAttrs_dup_count attrs]
    omega
  · intro input f hf h2
    exact deriveImpl_none_of_field_err input f hf (parseFieldAttrs_err _ (by omega))

/-- Witness for the amended C8: two dispose attributes on one reached field
give exactly one duplicate diagnostic. -/
theorem c8_amended_duplicates_witness :
    (parseFieldAttrs [⟨.outer, "dispose", .list .paren [.ident "ignore"]⟩,
                      ⟨.outer, "dispose", .list .paren [.ident "ignore"]⟩]).1.count
        Diag.duplicateAttr =
      countDispose [⟨.outer, "dispose", .list .paren [.ident "ignore"]⟩,
                    ⟨.outer, "dispose", .list .paren [.ident "ignore"]⟩] - 1 :=
  (c8_amended_duplicates.1 _ (by decide)).1

/-- C9 counterexample: a dispose directive in name-value form (not a
parenthesized argument list) is not silently accepted as an absent
directive.  It produces a diagnostic and the invocation emits no
implementation, instead of a default plain teardown call. -/
theorem c9_counterexample_namevalue_not_silent :
    (deriveDisposeImpl ⟨"S", [], .structData (.named
      [⟨some "a", "T", [⟨.outer, "dispose", .nameValue [.ident "x"]⟩]⟩])⟩).1 ≠ [] ∧
    (deriveDisposeImpl ⟨"S", [], .structData (.named
      [⟨some "a", "T", [⟨.outer, "dispose", .nameValue [.ident "x"]⟩]⟩])⟩).2 = none := by
  constructor
  · decide
  · decide

/-- C9 amended: any dispose directive on a field — in particular one whose
syntax after the directive name is not a parenthesized argument list — is
rejected during the attribute reparse (the reparsed meta stream starts with
the directive name, which the parser never consumes, so syn reports the
leftover tokens), producing at least one diagnostic and a failed result, and
the invocation emits zero implementation; only a fully absent directive
yields the default Plain mode. -/
theorem c9_amended_rejected_not_defaulted :
    (∀ (attrs : List RsAttr) (a : RsAttr), a ∈ attrs → a.path = "dispose" →
      isOkE (parseFieldAttrs attrs).2 = false ∧ (parseFieldAttrs attrs).1 ≠ []) ∧
    (∀ (input : DeriveInput) (f : SField) (a : RsAttr), f ∈ fieldsOfInput input →
      a ∈ f.attrs → a.path = "dispose" → (deriveDisposeImpl input).2 = none) := by
  constructor
  · intro attrs a ha hp
    have hpos := countDispose_pos_of_mem attrs a ha hp
    exact ⟨parseFieldAttrs_err attrs hpos, parseFieldAttrs_err_diags attrs hpos⟩
  · intro input f a hf ha hp
    exact deriveImpl_none_of_field_err input f hf
      (parseFieldAttrs_err _ (countDispose_pos_of_mem f.attrs a ha hp))

/-- Witness for the amended C9: a bare name-value dispose attribute fails to
parse. -/
theorem c9_amended_rejected_not_defaulted_witness :
    isOkE (parseFieldAttrs [⟨.outer, "dispose", .nameValue [.ident "x"]⟩]).2 = false :=
  (c9_amended_rejected_not_defaulted.1 [⟨.outer, "dispose", .nameValue [.ident "x"]⟩]
    ⟨.outer, "dispose", .nameValue [.ident "x"]⟩ (by simp) rfl).1
